import Mathlib

/-!
Verification of the table-reconstruction core of `txwd_record` (`src/main.py`,
class `TencentSheetParser`).  The Python source is shallowly embedded: strings
are `String` / `List Char`, Python floats are modelled as `ℚ`, Python lists as
`List`, a value that may be `None` as `Option`, and an uncaught Python
exception as the `Except.error` branch of `Except PyError`.
-/

namespace TxwdRecord

/-- An uncaught Python exception escaping the embedded code. -/
inductive PyError where
  | valueError (msg : String)
deriving Repr, DecidableEq

/-- One positioned text fragment, as built by the extraction loop of
`_transform_record_to_dataframe`: the dict
`{"text": ..., "x": ..., "y": ..., "style": current_style_group}`. -/
structure Fragment where
  text : String
  x : ℚ
  y : ℚ
  style : Option String
deriving Repr, DecidableEq

/-- The reconstructed table: the `pd.DataFrame(padded_data, columns=headers)`
result is modelled by its column labels and its rows of cells. -/
structure Table where
  headers : List String
  rows : List (List String)
deriving Repr, DecidableEq

/-- The numeric value of one decimal digit character. -/
def digitVal (c : Char) : ℕ := c.toNat - 48

/-- Python `int` applied to a string of decimal digits (regex group `(\d+)`). -/
def digitsToNat (ds : List Char) : ℕ :=
  ds.foldl (fun a c => 10 * a + digitVal c) 0

/-- Longest prefix of decimal digits, with the remainder (regex `\d+`). -/
def takeDigits : List Char → List Char × List Char
  | [] => ([], [])
  | c :: cs =>
    if c.isDigit then
      let p := takeDigits cs
      (c :: p.1, p.2)
    else ([], c :: cs)

/-- Longest prefix of digits and dots, with the remainder (regex `[\d.]+`). -/
def takeNumDot : List Char → List Char × List Char
  | [] => ([], [])
  | c :: cs =>
    if c.isDigit || c == '.' then
      let p := takeNumDot cs
      (c :: p.1, p.2)
    else ([], c :: cs)

/-- `_Q_COMMAND_PATTERN.match(cmd)`: the anchored regex
`q\[(\d+),([\d.]+),([\d.]+)]` applied to the command characters.  On success it
yields the placement index (group 1, already through `int`) and the raw
character groups for x and y.  `re.match` permits trailing characters after the
closing bracket, and the character classes contain neither `,` nor `]`, so
maximal munch is equivalent to the backtracking regex. -/
def qMatchList : List Char → Option (ℕ × List Char × List Char)
  | 'q' :: '[' :: rest =>
    let d := takeDigits rest
    if d.1.isEmpty then none
    else
      match d.2 with
      | ',' :: r2 =>
        let xg := takeNumDot r2
        if xg.1.isEmpty then none
        else
          match xg.2 with
          | ',' :: r4 =>
            let yg := takeNumDot r4
            if yg.1.isEmpty then none
            else
              match yg.2 with
              | ']' :: _ => some (digitsToNat d.1, xg.1, yg.1)
              | _ => none
          | _ => none
      | _ => none
  | _ => none

/-- The rational value Python `float` returns on a string of digits and at
most one dot. -/
def floatVal (cs : List Char) : ℚ :=
  let intPart := cs.takeWhile (fun c => c != '.')
  match cs.dropWhile (fun c => c != '.') with
  | [] => (digitsToNat intPart : ℚ)
  | _ :: frac => (digitsToNat intPart : ℚ) + (digitsToNat frac : ℚ) / (10 : ℚ) ^ frac.length

/-- Python `float(s)` on a non-empty string drawn from the class `[\d.]+`:
it raises `ValueError` (modelled as `none`) exactly when the string has two or
more dots or consists of dots only; otherwise it returns the value. -/
def parseFloat (cs : List Char) : Option ℚ :=
  if 2 ≤ cs.count '.' then none
  else if cs.all (fun c => c == '.') then none
  else some (floatVal cs)

/-- Python `cmd.startswith('g')`: the first character is `g`. -/
def startsWithG (s : String) : Bool :=
  match s.data with
  | 'g' :: _ => true
  | _ => false

/-- Python `actions_string.split(';')` (auxiliary, carries the reversed
current chunk). -/
def splitSemisAux : List Char → List Char → List String
  | [], acc => [String.mk acc.reverse]
  | c :: rest, acc =>
    if c == ';' then String.mk acc.reverse :: splitSemisAux rest []
    else splitSemisAux rest (c :: acc)

/-- Python `actions_string.split(';')`: split on every semicolon, keeping
empty chunks. -/
def splitSemis (s : String) : List String :=
  splitSemisAux s.data []

/-- One iteration of the `for cmd in commands` loop in
`_transform_record_to_dataframe`.  The state is the pair
`(current_style_group, extracted_data)`.  A command starting with `g` updates
the style; a command matching the placement pattern converts x then y with
`float` (an uncaught `ValueError` on failure, since the `except` clause names
only `IndexError`), then looks the index up in the text pool, skipping the
fragment when the index is out of range. -/
def extract_step (pool : List String) (st : Option String × List Fragment) (cmd : String) :
    Except PyError (Option String × List Fragment) :=
  let style := if startsWithG cmd then some cmd else st.1
  match qMatchList cmd.data with
  | none => .ok (style, st.2)
  | some (idx, xs, ys) =>
    match parseFloat xs with
    | none => .error (.valueError (String.mk xs))
    | some xv =>
      match parseFloat ys with
      | none => .error (.valueError (String.mk ys))
      | some yv =>
        match pool[idx]? with
        | none => .ok (style, st.2)
        | some t => .ok (style, st.2 ++ [⟨t, xv, yv, style⟩])

/-- The whole `for cmd in commands` loop, threading the state and stopping at
the first uncaught exception. -/
def extract_loop (pool : List String) (st : Option String × List Fragment) :
    List String → Except PyError (Option String × List Fragment)
  | [] => .ok st
  | cmd :: rest =>
    match extract_step pool st cmd with
    | .error e => .error e
    | .ok st2 => extract_loop pool st2 rest

/-- The fragment list produced by the extraction loop started on
`current_style_group = None`, `extracted_data = []`. -/
def extract_fragments (pool : List String) (cmds : List String) :
    Except PyError (List Fragment) :=
  (extract_loop pool (none, []) cmds).map (fun st => st.2)

/-- One comparison step of Python `min(..., key=lambda item: item['y'])`:
the running best is replaced only by a strictly smaller key. -/
def minStep (b c : Fragment) : Fragment :=
  if c.y < b.y then c else b

/-- Python `min(extracted_data, key=lambda item: item['y'])`: the first
fragment attaining the minimal y (ties keep the earlier element). -/
def topMost : List Fragment → Option Fragment
  | [] => none
  | a :: rest => some (rest.foldl minStep a)

/-- `_filter_out_header_labels`: drop every fragment whose style equals the
style of the topmost fragment.  (On the empty list the Python code returns
`[]` before calling `min`.) -/
def filter_out_header_labels (extracted : List Fragment) : List Fragment :=
  match topMost extracted with
  | none => []
  | some t => extracted.filter (fun f => f.style != t.style)

/-- The sort key `(item['y'], item['x'])` of the main sort, as a relation:
lexicographic order on the pair. -/
def leYX (a b : Fragment) : Prop :=
  a.y < b.y ∨ (a.y = b.y ∧ a.x ≤ b.x)

instance : DecidableRel leYX := fun a b =>
  decidable_of_iff (a.y < b.y ∨ (a.y = b.y ∧ a.x ≤ b.x)) Iff.rfl

instance : IsTotal Fragment leYX :=
  ⟨fun a b => by
    unfold leYX
    rcases lt_trichotomy a.y b.y with h | h | h
    · exact Or.inl (Or.inl h)
    · rcases le_total a.x b.x with hx | hx
      · exact Or.inl (Or.inr ⟨h, hx⟩)
      · exact Or.inr (Or.inr ⟨h.symm, hx⟩)
    · exact Or.inr (Or.inl h)⟩

instance : IsTrans Fragment leYX :=
  ⟨fun a b c hab hbc => by
    unfold leYX at *
    rcases hab with h1 | ⟨h1, hx1⟩ <;> rcases hbc with h2 | ⟨h2, hx2⟩
    · exact Or.inl (h1.trans h2)
    · exact Or.inl (h2 ▸ h1)
    · exact Or.inl (h1 ▸ h2)
    · exact Or.inr ⟨h1.trans h2, hx1.trans hx2⟩⟩

/-- The in-row sort key `item['x']`, as a relation. -/
def leX (a b : Fragment) : Prop := a.x ≤ b.x

instance : DecidableRel leX := fun a b =>
  decidable_of_iff (a.x ≤ b.x) Iff.rfl

instance : IsTotal Fragment leX := ⟨fun a b => le_total a.x b.x⟩

instance : IsTrans Fragment leX := ⟨fun _ _ _ h1 h2 => le_trans h1 h2⟩

/-- Python `sorted(main_data, key=lambda item: (item['y'], item['x']))`.
Python sorted is a stable sort; a stable sort for a total preorder is unique,
so insertion sort computes the same list. -/
def sortYX (l : List Fragment) : List Fragment :=
  List.insertionSort leYX l

/-- Python `sorted(current_row, key=lambda i: i['x'])`. -/
def sortByX (l : List Fragment) : List Fragment :=
  List.insertionSort leX l

/-- The loop of `_group_data_into_rows`: state `(table_rows, current_row,
last_y)`; a gap `|item.y - last_y| > tol` closes the current row (sorted by x)
and opens a new one; `last_y` follows every item; the still-open row is
appended after the loop. -/
def group_loop (tol : ℚ) :
    List (List Fragment) → List Fragment → ℚ → List Fragment → List (List Fragment)
  | tableRows, currentRow, _, [] => tableRows ++ [sortByX currentRow]
  | tableRows, currentRow, lastY, item :: rest =>
    if |item.y - lastY| > tol then
      group_loop tol (tableRows ++ [sortByX currentRow]) [item] item.y rest
    else
      group_loop tol tableRows (currentRow ++ [item]) item.y rest

/-- `_group_data_into_rows`. -/
def group_data_into_rows (tol : ℚ) : List Fragment → List (List Fragment)
  | [] => []
  | a :: rest => group_loop tol [] [a] a.y rest

/-- The same grouping, without the in-row x sort and without the accumulator:
the rows exactly as the y-chaining produces them.  Proved below to satisfy
`group_data_into_rows tol l = (groupY tol l).map sortByX`. -/
def groupYAux (tol : ℚ) : List Fragment → ℚ → List Fragment → List (List Fragment)
  | currentRow, _, [] => [currentRow]
  | currentRow, lastY, item :: rest =>
    if |item.y - lastY| > tol then currentRow :: groupYAux tol [item] item.y rest
    else groupYAux tol (currentRow ++ [item]) item.y rest

/-- Row grouping by y-chaining, rows in original order, not yet x-sorted. -/
def groupY (tol : ℚ) : List Fragment → List (List Fragment)
  | [] => []
  | a :: rest => groupYAux tol [a] a.y rest

/-- The Row Reconstructor of the spec: the sort of line 119 followed by the
grouping of line 122 of `_transform_record_to_dataframe`. -/
def row_reconstruct (tol : ℚ) (l : List Fragment) : List (List Fragment) :=
  group_data_into_rows tol (sortYX l)

/-- Specification-side predicate: `m` is the minimum y over the row `r`. -/
def isMinY (r : List Fragment) (m : ℚ) : Prop :=
  (∃ a ∈ r, a.y = m) ∧ ∀ a ∈ r, m ≤ a.y

/-- The padding/truncation comprehension of `_transform_record_to_dataframe`:
`row + ['']*(max_cols-len(row)) if len(row) < max_cols else row[:max_cols]`. -/
def pad_row (maxCols : ℕ) (row : List String) : List String :=
  if row.length < maxCols then row ++ List.replicate (maxCols - row.length) ""
  else row.take maxCols

/-- The DataFrame construction tail of `_transform_record_to_dataframe`: empty
result when there are no rows or the first row is empty, otherwise the first
row becomes the headers and the remaining rows are padded/truncated to the
header count. -/
def materialize : List (List String) → Table
  | [] => ⟨[], []⟩
  | first :: rest =>
    if first.isEmpty then ⟨[], []⟩
    else ⟨first, rest.map (pad_row first.length)⟩

/-- The pure pipeline applied to the extracted fragments: the part of
`_transform_record_to_dataframe` after the extraction loop. -/
def build_table (tol : ℚ) (extracted : List Fragment) : Table :=
  if extracted.isEmpty then ⟨[], []⟩
  else
    let mainData := filter_out_header_labels extracted
    let sortedData := sortYX mainData
    let tableRows := group_data_into_rows tol sortedData
    let textRows := tableRows.map (fun r => r.map Fragment.text)
    materialize textRows

/-- `_transform_record_to_dataframe` for a record that already provides the
text pool and the actions string (the `KeyError` branch for missing fields is
outside every claim).  An uncaught exception of the extraction loop escapes
the whole transformation. -/
def transform_record_to_dataframe (pool : List String) (actions : String) (tol : ℚ) :
    Except PyError Table :=
  match extract_loop pool (none, []) (splitSemis actions) with
  | .error e => .error e
  | .ok st => .ok (build_table tol st.2)

/-- The parser object built by `TencentSheetParser.__init__` (the fields the
core uses; the HTTP session is I/O glue). -/
structure TencentSheetParser where
  url : String
  y_tolerance : ℚ
deriving Repr, DecidableEq

/-- Python `url.startswith("https://docs.qq.com/sheet/")`. -/
def urlIsSheet (url : String) : Bool :=
  "https://docs.qq.com/sheet/".data.isPrefixOf url.data

/-- `TencentSheetParser.__init__(url, y_tolerance)`: raises `ValueError` when
the URL does not start with the sheet prefix, otherwise stores the fields
unchanged.  No other validation is performed. -/
def TencentSheetParser.init (url : String) (y_tolerance : ℚ) :
    Except PyError TencentSheetParser :=
  if urlIsSheet url then .ok ⟨url, y_tolerance⟩
  else .error (.valueError "not a sheet url")

/-- The outcome of `output_to`: either a refusal (logged, `return False`) or a
successful write of one file (`return True`). -/
inductive ExportResult where
  | emptyTableError
  | unsupportedFormatError (fmt : String)
  | written (fmt : String) (filePath : String)
deriving Repr, DecidableEq

/-- `pandas.DataFrame.empty` on the materialized table: true when either axis
has length zero. -/
def Table.isEmptyDf (t : Table) : Bool :=
  t.rows.isEmpty || t.headers.isEmpty

/-- `output_to(file_path, output_format)`: refuse an empty DataFrame, write
csv or excel, refuse any other format. -/
def output_to (t : Table) (file_path : String) (output_format : String) : ExportResult :=
  if t.isEmptyDf then .emptyTableError
  else if output_format = "csv" then .written "csv" file_path
  else if output_format = "excel" then .written "excel" file_path
  else .unsupportedFormatError output_format

/-- The file written by an `output_to` outcome, if any. -/
def writtenFile : ExportResult → Option String
  | .written _ p => some p
  | _ => none

/-! ## Helper lemmas -/

@[simp] theorem digitVal_0 : digitVal '0' = 0 := by decide

@[simp] theorem digitVal_1 : digitVal '1' = 1 := by decide

@[simp] theorem digitVal_2 : digitVal '2' = 2 := by decide

@[simp] theorem digitVal_3 : digitVal '3' = 3 := by decide

@[simp] theorem digitVal_4 : digitVal '4' = 4 := by decide

@[simp] theorem digitVal_5 : digitVal '5' = 5 := by decide

@[simp] theorem digitVal_6 : digitVal '6' = 6 := by decide

@[simp] theorem digitVal_7 : digitVal '7' = 7 := by decide

@[simp] theorem digitVal_8 : digitVal '8' = 8 := by decide

@[simp] theorem digitVal_9 : digitVal '9' = 9 := by decide

theorem group_loop_eq (tol : ℚ) (rest : List Fragment) :
    ∀ rows cur lastY, group_loop tol rows cur lastY rest =
      rows ++ (groupYAux tol cur lastY rest).map sortByX := by
  induction rest with
  | nil => intro rows cur lastY; simp [group_loop, groupYAux]
  | cons item rest ih =>
    intro rows cur lastY
    by_cases h : |item.y - lastY| > tol
    · simp [group_loop, groupYAux, h, ih]
    · simp [group_loop, groupYAux, h, ih]

theorem group_data_into_rows_eq (tol : ℚ) (l : List Fragment) :
    group_data_into_rows tol l = (groupY tol l).map sortByX := by
  cases l with
  | nil => rfl
  | cons a rest => simp [group_data_into_rows, groupY, group_loop_eq]

theorem groupYAux_flatten (tol : ℚ) (rest : List Fragment) :
    ∀ cur lastY, (groupYAux tol cur lastY rest).flatten = cur ++ rest := by
  induction rest with
  | nil => intro cur lastY; simp [groupYAux]
  | cons item rest ih =>
    intro cur lastY
    by_cases h : |item.y - lastY| > tol
    · simp [groupYAux, h, ih]
    · simp [groupYAux, h, ih]

theorem groupY_flatten (tol : ℚ) (l : List Fragment) :
    (groupY tol l).flatten = l := by
  cases l with
  | nil => rfl
  | cons a rest => simpa using groupYAux_flatten tol rest [a] a.y

theorem groupYAux_head (tol : ℚ) (rest : List Fragment) :
    ∀ cur lastY, ∃ t gs, groupYAux tol cur lastY rest = (cur ++ t) :: gs := by
  induction rest with
  | nil => intro cur lastY; exact ⟨[], [], by simp [groupYAux]⟩
  | cons item rest ih =>
    intro cur lastY
    by_cases h : |item.y - lastY| > tol
    · exact ⟨[], groupYAux tol [item] item.y rest, by simp [groupYAux, h]⟩
    · obtain ⟨t, gs, ht⟩ := ih (cur ++ [item]) item.y
      exact ⟨item :: t, gs, by simp [groupYAux, h, ht]⟩

theorem groupYAux_ne_nil (tol : ℚ) (rest : List Fragment) :
    ∀ cur lastY, cur ≠ [] → ∀ r ∈ groupYAux tol cur lastY rest, r ≠ [] := by
  induction rest with
  | nil => intro cur lastY hc r hr; simp [groupYAux] at hr; exact hr ▸ hc
  | cons item rest ih =>
    intro cur lastY hc r hr
    by_cases h : |item.y - lastY| > tol
    · simp only [groupYAux, if_pos h, List.mem_cons] at hr
      rcases hr with hr | hr
      · exact hr ▸ hc
      · exact ih [item] item.y (by simp) r hr
    · simp only [groupYAux, if_neg h] at hr
      exact ih (cur ++ [item]) item.y (by simp) r hr

theorem groupY_ne_nil (tol : ℚ) (l : List Fragment) :
    ∀ r ∈ groupY tol l, r ≠ [] := by
  cases l with
  | nil => intro r hr; simp [groupY] at hr
  | cons a rest => exact groupYAux_ne_nil tol rest [a] a.y (by simp)

theorem groupYAux_chain (tol : ℚ) (rest : List Fragment) :
    ∀ cur lastY, cur.getLast?.map Fragment.y = some lastY →
      List.Chain' (fun a b => |b.y - a.y| ≤ tol) cur →
      ∀ r ∈ groupYAux tol cur lastY rest, List.Chain' (fun a b => |b.y - a.y| ≤ tol) r := by
  induction rest with
  | nil => intro cur lastY _ hch r hr; simp [groupYAux] at hr; exact hr ▸ hch
  | cons item rest ih =>
    intro cur lastY hlast hch r hr
    by_cases h : |item.y - lastY| > tol
    · simp only [groupYAux, if_pos h, List.mem_cons] at hr
      rcases hr with hr | hr
      · exact hr ▸ hch
      · exact ih [item] item.y (by simp) (by simp) r hr
    · simp only [groupYAux, if_neg h] at hr
      refine ih (cur ++ [item]) item.y (by simp) ?_ r hr
      rw [List.chain'_append]
      refine ⟨hch, by simp, ?_⟩
      intro x hx b hb
      simp only [List.head?_cons, Option.mem_def, Option.some.injEq] at hb
      subst hb
      have : x.y = lastY := by
        rcases hx' : cur.getLast? with - | c
        · simp [hx'] at hx
        · simp only [hx', Option.mem_def, Option.some.injEq] at hx
          subst hx
          simpa [hx'] using hlast
      rw [this]
      exact le_of_not_lt h

theorem groupYAux_gap (tol : ℚ) (rest : List Fragment) :
    ∀ cur lastY, cur.getLast?.map Fragment.y = some lastY →
      List.Chain' (fun r s => ∀ a ∈ r.getLast?, ∀ b ∈ s.head?, |b.y - a.y| > tol)
        (groupYAux tol cur lastY rest) := by
  induction rest with
  | nil => intro cur lastY _; simp [groupYAux]
  | cons item rest ih =>
    intro cur lastY hlast
    by_cases h : |item.y - lastY| > tol
    · simp only [groupYAux, if_pos h]
      rw [List.chain'_cons']
      refine ⟨?_, ih [item] item.y (by simp)⟩
      intro s hs a ha b hb
      obtain ⟨t, gs, ht⟩ := groupYAux_head tol rest [item] item.y
      rw [ht] at hs
      simp only [List.head?_cons, Option.mem_def, Option.some.injEq] at hs
      subst hs
      simp only [List.cons_append, List.head?_cons, Option.mem_def, Option.some.injEq] at hb
      subst hb
      have : a.y = lastY := by
        rcases hx' : cur.getLast? with - | c
        · simp [hx'] at ha
        · simp only [hx', Option.mem_def, Option.some.injEq] at ha
          subst ha
          simpa [hx'] using hlast
      rw [this]
      exact h
    · simp only [groupYAux, if_neg h]
      exact ih (cur ++ [item]) item.y (by simp)

theorem groupY_chain (tol : ℚ) (l : List Fragment) :
    ∀ r ∈ groupY tol l, List.Chain' (fun a b => |b.y - a.y| ≤ tol) r := by
  cases l with
  | nil => intro r hr; simp [groupY] at hr
  | cons a rest => exact groupYAux_chain tol rest [a] a.y (by simp) (by simp)

theorem groupY_gap (tol : ℚ) (l : List Fragment) :
    List.Chain' (fun r s => ∀ a ∈ r.getLast?, ∀ b ∈ s.head?, |b.y - a.y| > tol)
      (groupY tol l) := by
  cases l with
  | nil => simp [groupY]
  | cons a rest => exact groupYAux_gap tol rest [a] a.y (by simp)

/-- Claim C2: for every sorted fragment sequence, a fragment after the first
starts a new row exactly when the absolute difference between its y and the y
of the immediately preceding fragment (the last seen y) is strictly greater
than the tolerance; two consecutive fragments at exactly the tolerance share a
row, at tolerance plus any positive amount they split, and the still-open last
row is always emitted (no fragment is dropped: the rows flatten back to the
input). -/
theorem c2_row_reconstructor_grouping (tol : ℚ) (l : List Fragment) :
    group_data_into_rows tol l = (groupY tol l).map sortByX
  ∧ (groupY tol l).flatten = l
  ∧ (∀ r ∈ groupY tol l, r ≠ [])
  ∧ (∀ r ∈ groupY tol l, List.Chain' (fun a b => |b.y - a.y| ≤ tol) r)
  ∧ List.Chain' (fun r s => ∀ a ∈ r.getLast?, ∀ b ∈ s.head?, |b.y - a.y| > tol) (groupY tol l)
  ∧ (∀ f1 f2 : Fragment, |f2.y - f1.y| = tol → groupY tol [f1, f2] = [[f1, f2]])
  ∧ (∀ f1 f2 : Fragment, ∀ e : ℚ, 0 < e → |f2.y - f1.y| = tol + e →
      groupY tol [f1, f2] = [[f1], [f2]]) := by
  refine ⟨group_data_into_rows_eq tol l, groupY_flatten tol l, groupY_ne_nil tol l,
    groupY_chain tol l, groupY_gap tol l, ?_, ?_⟩
  · intro f1 f2 hd
    simp [groupY, groupYAux, hd]
  · intro f1 f2 e he hd
    simp [groupY, groupYAux, hd, lt_add_of_pos_right tol he]

/-- Witness for C2 at a concrete input: y gap exactly the tolerance keeps one
row, one more unit splits, and the grouping is recovered inside
`group_data_into_rows`. -/
theorem c2_row_reconstructor_grouping_witness :
    groupY 5 [⟨"a", 0, 0, none⟩, ⟨"b", 0, 5, none⟩] =
        [[⟨"a", 0, 0, none⟩, ⟨"b", 0, 5, none⟩]]
  ∧ groupY 5 [⟨"a", 0, 0, none⟩, ⟨"c", 0, 6, none⟩] =
        [[⟨"a", 0, 0, none⟩], [⟨"c", 0, 6, none⟩]] :=
  ⟨(c2_row_reconstructor_grouping 5 []).2.2.2.2.2.1 ⟨"a", 0, 0, none⟩ ⟨"b", 0, 5, none⟩
      (by norm_num),
   (c2_row_reconstructor_grouping 5 []).2.2.2.2.2.2 ⟨"a", 0, 0, none⟩ ⟨"c", 0, 6, none⟩
      1 one_pos (by norm_num)⟩

/-- Claim C6: after Row Reconstruction (sort by (y, x), then group), every
row is in non-decreasing x order, and the rows are ordered by non-decreasing
minimum y. -/
theorem c6_row_ordering (tol : ℚ) (l : List Fragment) :
    (∀ r ∈ row_reconstruct tol l, List.Chain' (fun a b => a.x ≤ b.x) r)
  ∧ List.Pairwise (fun r s => ∀ m1 m2, isMinY r m1 → isMinY s m2 → m1 ≤ m2)
      (row_reconstruct tol l) := by
  have hsorted : List.Sorted leYX (sortYX l) := List.sorted_insertionSort leYX l
  have hflat : (groupY tol (sortYX l)).flatten = sortYX l := groupY_flatten tol (sortYX l)
  have hrr : row_reconstruct tol l = (groupY tol (sortYX l)).map sortByX :=
    group_data_into_rows_eq tol (sortYX l)
  constructor
  · intro r hr
    rw [hrr] at hr
    obtain ⟨g, hg, rfl⟩ := List.mem_map.mp hr
    exact (List.sorted_insertionSort leX g).chain'
  · rw [hrr]
    have hpair : List.Pairwise (fun g h => ∀ x ∈ g, ∀ z ∈ h, leYX x z)
        (groupY tol (sortYX l)) := by
      have hp : List.Pairwise leYX (groupY tol (sortYX l)).flatten := by
        rw [hflat]; exact hsorted
      exact (List.pairwise_flatten.mp hp).2
    rw [List.pairwise_map]
    refine hpair.imp ?_
    intro g h hgh m1 m2 hm1 hm2
    simp only [isMinY] at hm1 hm2
    obtain ⟨⟨a, ha, ha'⟩, -⟩ := hm1
    obtain ⟨⟨b, hb, hb'⟩, -⟩ := hm2
    have ha2 : a ∈ g := (List.perm_insertionSort leX g).mem_iff.mp ha
    have hb2 : b ∈ h := (List.perm_insertionSort leX h).mem_iff.mp hb
    have hab := hgh a ha2 b hb2
    rw [← ha', ← hb']
    rcases hab with hy | ⟨hy, -⟩
    · exact le_of_lt hy
    · exact le_of_eq hy

/-- Witness for C6: a concrete reconstruction, with the x order of its single
row read off from the theorem. -/
theorem c6_row_ordering_witness :
    List.Chain' (fun a b : Fragment => a.x ≤ b.x)
      [⟨"B", 0, 10, some "g2"⟩, ⟨"C", 20, 10, some "g2"⟩] := by
  refine (c6_row_ordering 5 [⟨"C", 20, 10, some "g2"⟩, ⟨"B", 0, 10, some "g2"⟩]).1 _ ?_
  norm_num +decide [row_reconstruct, sortYX, sortByX, List.insertionSort, List.orderedInsert,
    leYX, leX, group_data_into_rows, group_loop, groupY, groupYAux, abs_eq_max_neg, max_def]

theorem foldl_min_split (rest : List Fragment) :
    ∀ a : Fragment,
      ∃ l1 l2,
        a :: rest = l1 ++ (List.foldl minStep a rest) :: l2
        ∧ (∀ f ∈ l1, (List.foldl minStep a rest).y < f.y)
        ∧ (∀ f ∈ l2, (List.foldl minStep a rest).y ≤ f.y) := by
  induction rest with
  | nil => intro a; exact ⟨[], [], by simp, by simp, by simp⟩
  | cons c rest ih =>
    intro a
    rw [List.foldl_cons]
    by_cases h : c.y < a.y
    · rw [show minStep a c = c from if_pos h]
      obtain ⟨l1, l2, he, h1, h2⟩ := ih c
      have hty : (List.foldl minStep c rest).y ≤ c.y := by
        cases l1 with
        | nil =>
          simp only [List.nil_append] at he
          obtain ⟨hct, -⟩ := List.cons_eq_cons.mp he
          exact le_of_eq (by rw [← hct])
        | cons x l1x =>
          simp only [List.cons_append] at he
          obtain ⟨hcx, -⟩ := List.cons_eq_cons.mp he
          have hx := h1 x (List.mem_cons_self x l1x)
          rw [← hcx] at hx
          exact le_of_lt hx
      refine ⟨a :: l1, l2, ?_, ?_, h2⟩
      · rw [List.cons_append, ← he]
      · intro f hf
        rcases List.mem_cons.mp hf with rfl | hf
        · exact lt_of_le_of_lt hty h
        · exact h1 f hf
    · rw [show minStep a c = a from if_neg h]
      obtain ⟨l1, l2, he, h1, h2⟩ := ih a
      cases l1 with
      | nil =>
        simp only [List.nil_append] at he
        obtain ⟨hat, hres⟩ := List.cons_eq_cons.mp he
        refine ⟨[], c :: l2, ?_, by simp, ?_⟩
        · simp only [List.nil_append]
          rw [← hat, ← hres]
        · intro f hf
          rcases List.mem_cons.mp hf with rfl | hf
          · rw [← hat]
            exact le_of_not_lt h
          · exact h2 f hf
      | cons x l1x =>
        simp only [List.cons_append] at he
        obtain ⟨hax, hres⟩ := List.cons_eq_cons.mp he
        have hta : (List.foldl minStep a rest).y < a.y := by
          have hx := h1 x (List.mem_cons_self x l1x)
          rw [← hax] at hx
          exact hx
        refine ⟨a :: c :: l1x, l2, ?_, ?_, h2⟩
        · rw [List.cons_append, List.cons_append, ← hres]
        · intro f hf
          rcases List.mem_cons.mp hf with rfl | hf
          · exact hta
          · rcases List.mem_cons.mp hf with rfl | hf
            · exact lt_of_lt_of_le hta (le_of_not_lt h)
            · exact h1 f (List.mem_cons_of_mem x hf)

/-- Claim C1: on a non-empty fragment list the Header/Label Filter removes
exactly the fragments sharing the style of the first fragment attaining the
minimum y (the topmost one; ties keep the first encountered), so a
null-styled fragment is excluded exactly when that topmost style is null;
and the concrete three-fragment example produces headers B, C and no data
rows. -/
theorem c1_header_label_filter (l : List Fragment) (h : l ≠ []) :
    (∃ t l1 l2,
        topMost l = some t
        ∧ l = l1 ++ t :: l2
        ∧ (∀ f ∈ l1, t.y < f.y)
        ∧ (∀ f ∈ l2, t.y ≤ f.y)
        ∧ filter_out_header_labels l = l.filter (fun f => f.style != t.style)
        ∧ (∀ f ∈ l, f.style = none → (f ∈ filter_out_header_labels l ↔ t.style ≠ none)))
  ∧ build_table 5 [⟨"A", 0, 0, some "g1"⟩, ⟨"B", 0, 10, some "g2"⟩, ⟨"C", 20, 10, some "g2"⟩]
      = ⟨["B", "C"], []⟩ := by
  constructor
  · obtain ⟨a, rest, rfl⟩ := List.exists_cons_of_ne_nil h
    obtain ⟨l1, l2, he, h1, h2⟩ := foldl_min_split rest a
    have htop : topMost (a :: rest) = some (List.foldl minStep a rest) := rfl
    have hfil : filter_out_header_labels (a :: rest) =
        (a :: rest).filter (fun f => f.style != (List.foldl minStep a rest).style) := by
      simp [filter_out_header_labels, htop]
    refine ⟨List.foldl minStep a rest, l1, l2, htop, he, h1, h2, hfil, ?_⟩
    intro f hf hnone
    rw [hfil, List.mem_filter]
    simp only [hf, true_and, bne_iff_ne, hnone]
    exact ne_comm
  · norm_num +decide [build_table, filter_out_header_labels, topMost, minStep, sortYX, sortByX,
      List.insertionSort, List.orderedInsert, leYX, leX, group_data_into_rows, group_loop,
      materialize, abs_eq_max_neg, max_def]

/-- Witness for C1 at the concrete input of the claim. -/
theorem c1_header_label_filter_witness :
    build_table 5 [⟨"A", 0, 0, some "g1"⟩, ⟨"B", 0, 10, some "g2"⟩, ⟨"C", 20, 10, some "g2"⟩]
      = ⟨["B", "C"], []⟩ :=
  (c1_header_label_filter
    [⟨"A", 0, 0, some "g1"⟩, ⟨"B", 0, 10, some "g2"⟩, ⟨"C", 20, 10, some "g2"⟩]
    (by simp)).2

theorem extract_loop_append (pool : List String) (l1 l2 : List String) :
    ∀ st, extract_loop pool st (l1 ++ l2) =
      match extract_loop pool st l1 with
      | .error e => .error e
      | .ok st2 => extract_loop pool st2 l2 := by
  induction l1 with
  | nil => intro st; simp [extract_loop]
  | cons cmd l1 ih =>
    intro st
    simp only [List.cons_append, extract_loop]
    cases extract_step pool st cmd with
    | error e => rfl
    | ok st2 => exact ih st2

theorem qMatchList_shape {cs : List Char} {v : ℕ × List Char × List Char}
    (h : qMatchList cs = some v) : ∃ rest, cs = 'q' :: '[' :: rest := by
  unfold qMatchList at h
  split at h
  · next rest => exact ⟨rest, rfl⟩
  · exact absurd h (by simp)

theorem qMatchList_not_g {s : String} {v : ℕ × List Char × List Char}
    (h : qMatchList s.data = some v) : startsWithG s = false := by
  obtain ⟨rest, hr⟩ := qMatchList_shape h
  simp [startsWithG, hr]

theorem extract_step_skip (pool : List String) (st : Option String × List Fragment)
    (c : String) (i : ℕ) (xs ys : List Char)
    (hq : qMatchList c.data = some (i, xs, ys))
    (hx : (parseFloat xs).isSome = true) (hy : (parseFloat ys).isSome = true)
    (hi : pool.length ≤ i) :
    extract_step pool st c = .ok st := by
  have hg : startsWithG c = false := qMatchList_not_g hq
  obtain ⟨xv, hxv⟩ := Option.isSome_iff_exists.mp hx
  obtain ⟨yv, hyv⟩ := Option.isSome_iff_exists.mp hy
  have hnone : pool[i]? = none := by
    rw [List.getElem?_eq_none_iff]
    exact hi
  simp [extract_step, hq, hxv, hyv, hg, hnone]

/-- Claim C8: a placement command whose text-pool index is out of range is
skipped and extraction of all other commands proceeds as if the offending
command had been removed from the log. -/
theorem c8_out_of_range_index (pool : List String) (cs1 : List String) (c : String)
    (cs2 : List String) (i : ℕ) (xs ys : List Char)
    (hq : qMatchList c.data = some (i, xs, ys))
    (hx : (parseFloat xs).isSome = true) (hy : (parseFloat ys).isSome = true)
    (hi : pool.length ≤ i) :
    extract_fragments pool (cs1 ++ c :: cs2) = extract_fragments pool (cs1 ++ cs2) := by
  unfold extract_fragments
  rw [extract_loop_append, extract_loop_append]
  cases hloop : extract_loop pool (none, []) cs1 with
  | error e => rfl
  | ok st2 =>
    have hc : extract_loop pool st2 (c :: cs2) = extract_loop pool st2 cs2 := by
      simp [extract_loop, extract_step_skip pool st2 c i xs ys hq hx hy hi]
    simp only [hc]

/-- Witness for C8: a concrete log where the out-of-range command
`q[7,1,2]` is dropped and the rest of the log parses identically. -/
theorem c8_out_of_range_index_witness :
    extract_fragments ["A"] (["g9"] ++ "q[7,1,2]" :: ["q[0,3,4]"]) =
      extract_fragments ["A"] (["g9"] ++ ["q[0,3,4]"]) :=
  c8_out_of_range_index ["A"] ["g9"] "q[7,1,2]" ["q[0,3,4]"] 7 ['1'] ['2']
    (by decide) (by decide) (by decide) (by decide)

theorem extract_loop_no_q (pool : List String) (cmds : List String) :
    ∀ st, (∀ cmd ∈ cmds, qMatchList cmd.data = none) →
      ∃ sty, extract_loop pool st cmds = .ok (sty, st.2) := by
  induction cmds with
  | nil => intro st _; exact ⟨st.1, by simp [extract_loop]⟩
  | cons cmd rest ih =>
    intro st h
    have hq : qMatchList cmd.data = none := h cmd (List.mem_cons_self cmd rest)
    have hstep : extract_step pool st cmd =
        .ok (if startsWithG cmd then some cmd else st.1, st.2) := by
      simp [extract_step, hq]
    obtain ⟨sty, hs⟩ := ih (if startsWithG cmd then some cmd else st.1, st.2)
      (fun c hc => h c (List.mem_cons_of_mem _ hc))
    exact ⟨sty, by simp [extract_loop, hstep, hs]⟩

/-- Claim C7: an action log with no placement command yields the empty table
and no exception. -/
theorem c7_empty_input (pool : List String) (actions : String) (tol : ℚ)
    (h : ∀ cmd ∈ splitSemis actions, qMatchList cmd.data = none) :
    transform_record_to_dataframe pool actions tol = .ok ⟨[], []⟩ := by
  obtain ⟨sty, hs⟩ := extract_loop_no_q pool (splitSemis actions) (none, []) h
  simp [transform_record_to_dataframe, hs, build_table]

/-- Witness for C7: a log of style and junk commands only. -/
theorem c7_empty_input_witness :
    transform_record_to_dataframe ["A"] "g1;hello;;x[0,1,2]" 5 = .ok ⟨[], []⟩ :=
  c7_empty_input ["A"] "g1;hello;;x[0,1,2]" 5 (by decide)

/-- Counterexample to C4 as stated: the command `q[0,1..2,3]` matches the
placement pattern, its x group `1..2` fails float conversion, and the whole
transformation aborts with the uncaught `ValueError` instead of dropping the
fragment and continuing. -/
theorem c4_counterexample :
    transform_record_to_dataframe ["A"] "q[0,1..2,3]" 5 = .error (.valueError "1..2") := by
  norm_num +decide [transform_record_to_dataframe, splitSemis, splitSemisAux,
    extract_loop, extract_step, startsWithG, qMatchList, takeDigits, takeNumDot, parseFloat]

/-- Claim C4 (amended): a placement command whose x or y group fails float
conversion is fatal: the extraction aborts with an uncaught `ValueError`,
regardless of the commands that follow.  Only out-of-range indices are
recoverable. -/
theorem c4_coordinate_parse_fatal (pool : List String) (cs1 : List String) (c : String)
    (cs2 : List String) (st : Option String × List Fragment) (i : ℕ) (xs ys : List Char)
    (h1 : extract_loop pool (none, []) cs1 = .ok st)
    (hq : qMatchList c.data = some (i, xs, ys))
    (hfail : parseFloat xs = none ∨ ((parseFloat xs).isSome = true ∧ parseFloat ys = none)) :
    ∃ msg, extract_fragments pool (cs1 ++ c :: cs2) = .error (.valueError msg) := by
  have hstep : ∃ msg, extract_step pool st c = .error (.valueError msg) := by
    rcases hfail with hx | ⟨hx, hy⟩
    · exact ⟨String.mk xs, by simp [extract_step, hq, hx]⟩
    · obtain ⟨xv, hxv⟩ := Option.isSome_iff_exists.mp hx
      exact ⟨String.mk ys, by simp [extract_step, hq, hxv, hy]⟩
  obtain ⟨msg, hm⟩ := hstep
  refine ⟨msg, ?_⟩
  unfold extract_fragments
  rw [extract_loop_append, h1]
  simp [extract_loop, hm, Except.map]

/-- Witness for C4 (amended): the bad command aborts extraction even though a
valid command follows it. -/
theorem c4_coordinate_parse_fatal_witness :
    (extract_fragments ["A"] (["g1"] ++ "q[0,1..2,3]" :: ["q[0,5,7]"])).isOk = false := by
  obtain ⟨msg, hm⟩ := c4_coordinate_parse_fatal ["A"] ["g1"] "q[0,1..2,3]" ["q[0,5,7]"]
    (some "g1", []) 0 ['1', '.', '.', '2'] ['3'] (by rfl) (by decide) (Or.inl (by decide))
  rw [hm]
  rfl

theorem pad_row_length (n : ℕ) (row : List String) : (pad_row n row).length = n := by
  by_cases h : row.length < n
  · simp only [pad_row, if_pos h, List.length_append, List.length_replicate]
    omega
  · simp only [pad_row, if_neg h, List.length_take]
    omega

/-- Claim C3: with a non-empty first row, materialization takes the first row
as headers, keeps one output row per remaining input row, gives every output
row exactly the header count of cells, right-pads shorter rows with empty
strings and truncates longer rows. -/
theorem c3_table_uniform_width (first : List String) (rest : List (List String))
    (h : first ≠ []) :
    (materialize (first :: rest)).headers = first
  ∧ (∀ r ∈ (materialize (first :: rest)).rows, r.length = first.length)
  ∧ (materialize (first :: rest)).rows.length = rest.length
  ∧ ∀ i : ℕ, ∀ r, rest[i]? = some r →
      ∃ p, (materialize (first :: rest)).rows[i]? = some p
        ∧ p.length = first.length
        ∧ (r.length ≤ first.length → p = r ++ List.replicate (first.length - r.length) "")
        ∧ (first.length ≤ r.length → p = r.take first.length) := by
  have hne : first.isEmpty = false := by
    cases first with
    | nil => exact absurd rfl h
    | cons a l => rfl
  have hm : materialize (first :: rest) = ⟨first, rest.map (pad_row first.length)⟩ := by
    simp [materialize, hne]
  refine ⟨by rw [hm], ?_, by rw [hm]; simp, ?_⟩
  · intro r hr
    rw [hm] at hr
    obtain ⟨r0, -, rfl⟩ := List.mem_map.mp hr
    exact pad_row_length _ _
  · intro i r hir
    refine ⟨pad_row first.length r, ?_, pad_row_length _ _, ?_, ?_⟩
    · rw [hm]
      simp [List.getElem?_map, hir]
    · intro hle
      rcases lt_or_eq_of_le hle with hlt | heq
      · rw [pad_row, if_pos hlt]
      · rw [pad_row, if_neg (by omega)]
        simp [← heq]
    · intro hge
      rw [pad_row, if_neg (by omega)]

/-- Witness for C3: headers of length three, one data row of length two,
padded by one empty cell. -/
theorem c3_table_uniform_width_witness :
    (materialize [["h1", "h2", "h3"], ["a", "b"]]).rows[0]? = some ["a", "b", ""] := by
  obtain ⟨p, hp, -, hpad, -⟩ :=
    (c3_table_uniform_width ["h1", "h2", "h3"] [["a", "b"]] (by simp)).2.2.2 0 ["a", "b"] rfl
  rw [hp, hpad (by simp)]
  rfl

/-- Counterexample to C5 as stated: construction with a negative tolerance
succeeds instead of failing fast. -/
theorem c5_counterexample :
    TencentSheetParser.init "https://docs.qq.com/sheet/x" (-1) =
      .ok ⟨"https://docs.qq.com/sheet/x", -1⟩ := by
  norm_num +decide [TencentSheetParser.init, urlIsSheet]

/-- Claim C5 (amended): the constructor validates only the URL; any tolerance
value, negative ones included, is accepted silently and stored unchanged. -/
theorem c5_negative_tolerance_accepted (url : String) (t : ℚ)
    (h : urlIsSheet url = true) :
    TencentSheetParser.init url t = .ok ⟨url, t⟩ := by
  simp [TencentSheetParser.init, h]

/-- Witness for C5 (amended) at a concrete negative tolerance. -/
theorem c5_negative_tolerance_accepted_witness :
    TencentSheetParser.init "https://docs.qq.com/sheet/abc" (-3) =
      .ok ⟨"https://docs.qq.com/sheet/abc", -3⟩ :=
  c5_negative_tolerance_accepted "https://docs.qq.com/sheet/abc" (-3) (by decide)

/-- Claim C9: exporting an empty table fails with the empty-table condition,
exporting a non-empty table with an unsupported format fails with the
unsupported-format condition, and neither failure writes a file. -/
theorem c9_exporter_errors (t : Table) (file_path output_format : String) :
    (t.rows = [] →
        output_to t file_path output_format = .emptyTableError
        ∧ writtenFile (output_to t file_path output_format) = none)
  ∧ (t.rows ≠ [] → t.headers ≠ [] → output_format ≠ "csv" → output_format ≠ "excel" →
        output_to t file_path output_format = .unsupportedFormatError output_format
        ∧ writtenFile (output_to t file_path output_format) = none) := by
  constructor
  · intro hr
    have he : t.isEmptyDf = true := by simp [Table.isEmptyDf, hr]
    constructor <;> simp [output_to, he, writtenFile]
  · intro hr hh hcsv hxl
    have he : t.isEmptyDf = false := by
      unfold Table.isEmptyDf
      cases hrows : t.rows with
      | nil => exact absurd hrows hr
      | cons a l =>
        cases hheads : t.headers with
        | nil => exact absurd hheads hh
        | cons b m => rfl
    constructor <;> simp [output_to, he, hcsv, hxl, writtenFile]

/-- Witness for C9: an empty table refused, and a json export refused. -/
theorem c9_exporter_errors_witness :
    output_to ⟨["h"], []⟩ "out.csv" "csv" = .emptyTableError
  ∧ output_to ⟨["h"], [["a"]]⟩ "out.json" "json" = .unsupportedFormatError "json" :=
  ⟨((c9_exporter_errors ⟨["h"], []⟩ "out.csv" "csv").1 rfl).1,
   ((c9_exporter_errors ⟨["h"], [["a"]]⟩ "out.json" "json").2 (by simp) (by simp)
      (by decide) (by decide)).1⟩

/-- Claim C10: constructing the parser raises `ValueError` exactly when the
URL does not start with the sheet prefix; with the prefix, construction
succeeds. -/
theorem c10_url_precondition (url : String) (t : ℚ) :
    (urlIsSheet url = false →
        TencentSheetParser.init url t = .error (.valueError "not a sheet url"))
  ∧ (urlIsSheet url = true → TencentSheetParser.init url t = .ok ⟨url, t⟩) := by
  constructor
  · intro h
    simp [TencentSheetParser.init, h]
  · intro h
    simp [TencentSheetParser.init, h]

/-- Witness for C10: a non-sheet URL is rejected, a sheet URL is accepted. -/
theorem c10_url_precondition_witness :
    TencentSheetParser.init "http://example.com" 5 = .error (.valueError "not a sheet url")
  ∧ TencentSheetParser.init "https://docs.qq.com/sheet/DTkZ" 5 =
      .ok ⟨"https://docs.qq.com/sheet/DTkZ", 5⟩ :=
  ⟨(c10_url_precondition "http://example.com" 5).1 (by decide),
   (c10_url_precondition "https://docs.qq.com/sheet/DTkZ" 5).2 (by decide)⟩

end TxwdRecord
